import Mathlib

/-!
Verification of `repoze.who.friendlyforms` (`FriendlyFormPlugin`).

Shallow embedding of `src/repoze/who/plugins/friendlyform.py` and of the
library collaborators it drives (the Python 2.6-era standard library modules
`urlparse`, `cgi`, `urllib`, and the `paste` request/response helpers), with
proofs of the frozen claims about the plugin's identity and challenge hooks.

Modelling conventions:

* Python byte strings (`str`) are modelled as `List Char`; the byte-string
  nature of Python 2 strings shows up as `allBytes` hypotheses (every
  character below 256) where percent-coding round trips are involved.
* Python dictionaries built by `cgi.parse_qs` are modelled as association
  lists in first-insertion order; setting an existing key replaces its value
  in place, setting a fresh key appends it.  (CPython 2's hash ordering is
  unspecified; theorems about multi-key query strings are therefore stated
  through the parsed mapping, not through a particular serialisation order.)
* `paste.util.multidict.MultiDict` is an ordered list of key/value pairs:
  lookup returns the first value of a key, deletion removes every pair of a
  key, iteration preserves order.  This matches the paste implementation.
* The per-request caches (`urlparse._parse_cache`,
  `environ['paste.parsed_dict_querystring']`) are semantically transparent
  and are not modelled; `urlsplit`'s `http` fast path is the general path
  specialised to `scheme = "http"` in Python 2.6 and is folded into it.
* The parent class `repoze.who.plugins.form.RedirectingFormPlugin` is an
  external collaborator: its `identify` has already run when our `identify`
  inspects the environ (so the environ is the post-parent state), and its
  `challenge` result is the `challenger` argument of our `challenge`.
-/

/-- A Python 2 byte string, as a list of characters. -/
abbrev Str := List Char

/-- Every character of the string is a single byte (Python 2 `str` invariant). -/
def allBytes (s : Str) : Prop := ∀ c ∈ s, c.toNat < 256

instance (s : Str) : Decidable (allBytes s) := by
  unfold allBytes; infer_instance

/-! ## Basic string operations mirroring Python's `str` methods -/

/-- `s.split(sep)` for a one-character separator: Python returns `['']` on the
empty string and keeps empty pieces. -/
def splitOnChar (sep : Char) : Str → List Str
  | [] => [[]]
  | c :: rest =>
    if c = sep then [] :: splitOnChar sep rest
    else
      match splitOnChar sep rest with
      | [] => [[c]]
      | s :: ss => (c :: s) :: ss

/-- `s.split(sep, 1)` when the separator occurs: the pieces before and after
the first occurrence.  `none` means the separator does not occur (Python's
`sep in s` test guarding the split). -/
def split1 (sep : Char) : Str → Option (Str × Str)
  | [] => none
  | c :: rest =>
    if c = sep then some ([], rest)
    else (split1 sep rest).map (fun p => (c :: p.1, p.2))

/-- `s.lower()` (ASCII, as CPython's default-locale `str.lower`). -/
def lowerStr (s : Str) : Str := s.map Char.toLower

/-- The segment of `s` strictly after the last occurrence of `c`
(`s[s.rfind(c)+1:]`); the whole string when `c` is absent. -/
def afterLast (c : Char) (s : Str) : Str :=
  (s.reverse.takeWhile (fun d => d ≠ c)).reverse

/-- The segment of `s` strictly before the last occurrence of `c`
(`s[:s.rfind(c)]`). -/
def beforeLast (c : Char) (s : Str) : Str :=
  ((s.reverse.dropWhile (fun d => d ≠ c)).drop 1).reverse

/-! ## `urlparse` (Python 2.6) -/

/-- `urlparse.scheme_chars`. -/
def scheme_chars : List Char :=
  ("abcdefghijklmnopqrstuvwxyzABCDEFGHIJKLMNOPQRSTUVWXYZ0123456789+-.").toList

/-- `urlparse.uses_netloc` (Python 2.6). -/
def uses_netloc : List Str :=
  [("ftp").toList, ("http").toList, ("gopher").toList, ("nntp").toList,
   ("telnet").toList, ("imap").toList, ("wais").toList, ("file").toList,
   ("mms").toList, ("https").toList, ("shttp").toList, ("snews").toList,
   ("prospero").toList, ("rtsp").toList, ("rtspu").toList, ("rsync").toList,
   [], ("svn").toList, ("svn+ssh").toList, ("sftp").toList]

/-- `urlparse.uses_fragment` (Python 2.6). -/
def uses_fragment : List Str :=
  [("ftp").toList, ("hdl").toList, ("http").toList, ("gopher").toList,
   ("news").toList, ("nntp").toList, ("wais").toList, ("https").toList,
   ("shttp").toList, ("snews").toList, ("file").toList, ("prospero").toList,
   []]

/-- `urlparse.uses_query` (Python 2.6). -/
def uses_query : List Str :=
  [("http").toList, ("wais").toList, ("imap").toList, ("https").toList,
   ("shttp").toList, ("mms").toList, ("gopher").toList, ("rtsp").toList,
   ("rtspu").toList, ("sip").toList, ("sips").toList, [], ("sftp").toList]

/-- `urlparse.uses_params` (Python 2.6). -/
def uses_params : List Str :=
  [("ftp").toList, ("hdl").toList, ("prospero").toList, ("http").toList,
   ("imap").toList, ("https").toList, ("shttp").toList, ("rtsp").toList,
   ("rtspu").toList, ("sip").toList, ("sips").toList, ("mms").toList,
   [], ("sftp").toList]

/-- Result of `urlparse.urlsplit`. -/
structure SplitResult where
  scheme : Str
  netloc : Str
  path : Str
  query : Str
  fragment : Str
deriving DecidableEq, Repr

/-- Result of `urlparse.urlparse` (adds `params`). -/
structure ParseResult where
  scheme : Str
  netloc : Str
  path : Str
  params : Str
  query : Str
  fragment : Str
deriving DecidableEq, Repr

/-- `urlparse._splitnetloc(url, 2)`: the authority runs from index 2 to the
first of `/`, `?`, `#`; the remainder keeps the delimiter. -/
def splitnetloc (url : Str) : Str × Str :=
  let body := url.drop 2
  (body.takeWhile (fun c => c ∉ (['/', '?', '#'] : List Char)),
   body.dropWhile (fun c => c ∉ (['/', '?', '#'] : List Char)))

/-- `urlparse.urlsplit` (Python 2.6, `allow_fragments=True`): scheme detection
(no port-number special case in 2.6), authority only for `uses_netloc`
schemes, fragment only for `uses_fragment` schemes, query only for
`uses_query` schemes. -/
def urlsplit (url0 : Str) : SplitResult :=
  let schemeStep : Str × Str :=
    match split1 ':' url0 with
    | some (pre, post) =>
      if pre ≠ [] ∧ pre.all (fun c => scheme_chars.contains c) then
        (lowerStr pre, post)
      else ([], url0)
    | none => ([], url0)
  let scheme := schemeStep.1
  let url1 := schemeStep.2
  let netlocStep : Str × Str :=
    if uses_netloc.contains scheme ∧ url1.take 2 = ['/', '/'] then
      splitnetloc url1
    else ([], url1)
  let netloc := netlocStep.1
  let url2 := netlocStep.2
  let fragStep : Str × Str :=
    if uses_fragment.contains scheme then
      match split1 '#' url2 with
      | some (a, b) => (a, b)
      | none => (url2, [])
    else (url2, [])
  let url3 := fragStep.1
  let fragment := fragStep.2
  let queryStep : Str × Str :=
    if uses_query.contains scheme then
      match split1 '?' url3 with
      | some (a, b) => (a, b)
      | none => (url3, [])
    else (url3, [])
  ⟨scheme, netloc, queryStep.1, queryStep.2, fragment⟩

/-- `urlparse._splitparams`: split `;params` out of the last path segment. -/
def splitparams (url : Str) : Str × Str :=
  if '/' ∈ url then
    match split1 ';' (afterLast '/' url) with
    | some (a, b) => (beforeLast '/' url ++ '/' :: a, b)
    | none => (url, [])
  else
    match split1 ';' url with
    | some (a, b) => (a, b)
    | none => (url, [])

/-- `urlparse.urlparse` (Python 2.6). -/
def urlparse (url : Str) : ParseResult :=
  let s := urlsplit url
  if uses_params.contains s.scheme ∧ ';' ∈ s.path then
    let pp := splitparams s.path
    ⟨s.scheme, s.netloc, pp.1, pp.2, s.query, s.fragment⟩
  else ⟨s.scheme, s.netloc, s.path, [], s.query, s.fragment⟩

/-- `urlparse.urlunsplit` (Python 2.6). -/
def urlunsplit (scheme netloc path query fragment : Str) : Str :=
  let url1 :=
    if netloc ≠ [] ∨ path.take 2 = ['/', '/'] then
      let p := if path ≠ [] ∧ path.take 1 ≠ ['/'] then '/' :: path else path
      '/' :: '/' :: netloc ++ p
    else path
  let url2 := if scheme ≠ [] then scheme ++ ':' :: url1 else url1
  let url3 := if query ≠ [] then url2 ++ '?' :: query else url2
  if fragment ≠ [] then url3 ++ '#' :: fragment else url3

/-- `urlparse.urlunparse` (Python 2.6). -/
def urlunparse (r : ParseResult) : Str :=
  urlunsplit r.scheme r.netloc
    (if r.params ≠ [] then r.path ++ ';' :: r.params else r.path)
    r.query r.fragment

/-! ## `urllib` quoting and encoding (Python 2.6) -/

/-- `urllib.always_safe`. -/
def always_safe : List Char :=
  ("ABCDEFGHIJKLMNOPQRSTUVWXYZabcdefghijklmnopqrstuvwxyz0123456789_.-").toList

/-- Upper-case hex digit of a nibble (as `'%%%02X' % i` produces). -/
def hexUpperDigit (n : Nat) : Char :=
  if n < 10 then Char.ofNat (48 + n) else Char.ofNat (55 + n)

/-- The `%XX` escape of a byte-sized character. -/
def pctEncode (c : Char) : Str :=
  ['%', hexUpperDigit (c.toNat / 16 % 16), hexUpperDigit (c.toNat % 16)]

/-- One character of `urllib.quote`: kept when safe, `%XX` otherwise. -/
def quoteChar (safe : List Char) (c : Char) : Str :=
  if always_safe.contains c ∨ safe.contains c then [c] else pctEncode c

/-- `urllib.quote(s, safe)`. -/
def pyQuote (s : Str) (safe : List Char) : Str :=
  (s.map (quoteChar safe)).flatten

/-- `urllib.quote_plus(s)` with the default empty `safe` set, as called by
`urlencode`: spaces are kept safe by `quote` and then turned into `+`. -/
def quote_plus (s : Str) : Str :=
  if ' ' ∈ s then
    (pyQuote s [' ']).map (fun c => if c = ' ' then '+' else c)
  else pyQuote s []

/-- A character is a lower-case hex digit. -/
def isLowerHex (c : Char) : Bool := c.isDigit || ('a' ≤ c && c ≤ 'f')

/-- A character is an upper-case hex digit. -/
def isUpperHex (c : Char) : Bool := c.isDigit || ('A' ≤ c && c ≤ 'F')

/-- Numeric value of a hex digit. -/
def hexVal (c : Char) : Nat :=
  if c.isDigit then c.toNat - 48
  else if 'a' ≤ c then c.toNat - 87 else c.toNat - 55

/-- A two-character key of `urllib._hextochr`: that table holds every
all-lower-case and every all-upper-case hex pair, but no mixed-case pair
with letters from both cases. -/
def validHexPair (c1 c2 : Char) : Bool :=
  (isLowerHex c1 && isLowerHex c2) || (isUpperHex c1 && isUpperHex c2)

/-- `urllib.unquote`: decode `%XX` escapes, leave malformed escapes alone.
(Equivalent single-pass form of the `s.split('%')` loop in `urllib`.) -/
def unquote : Str → Str
  | [] => []
  | '%' :: c1 :: c2 :: rest =>
    if validHexPair c1 c2 then
      Char.ofNat (16 * hexVal c1 + hexVal c2) :: unquote rest
    else '%' :: unquote (c1 :: c2 :: rest)
  | c :: rest => c :: unquote rest

/-- `x.replace('+', ' ')`, the first half of CGI value decoding. -/
def plusToSpace (s : Str) : Str := s.map (fun c => if c = '+' then ' ' else c)

/-- `unquote(x.replace('+', ' '))` as `cgi.parse_qsl` applies to each name
and value. -/
def unq (s : Str) : Str := unquote (plusToSpace s)

/-- `str(n)` for a Python integer. -/
def intStr (n : Int) : Str :=
  if n < 0 then '-' :: Nat.toDigits 10 (-n).toNat else Nat.toDigits 10 n.toNat

/-- A Python value that can sit in a query dictionary: a string, an integer
(the login counter), or a list of strings (as `parse_qs` builds). -/
inductive PyVal where
  | str (s : Str)
  | int (n : Int)
  | list (l : List Str)
deriving DecidableEq, Repr

/-- `'&'.join(l)`. -/
def joinAmp (l : List Str) : Str :=
  match l with
  | [] => []
  | x :: xs => x ++ xs.flatMap (fun y => '&' :: y)

/-- One `k=v` piece of `urlencode` output. -/
def encPair (k v : Str) : Str := quote_plus k ++ '=' :: quote_plus v

/-- `urllib.urlencode(query, doseq=1)` over an items list: a string value is
quoted directly, an integer falls into the `len()`-`TypeError` branch and is
`str()`-ed, a list contributes one piece per element. -/
def urlencode_doseq (q : List (Str × PyVal)) : Str :=
  joinAmp (q.flatMap (fun kv =>
    match kv.2 with
    | .str s => [encPair kv.1 s]
    | .int n => [encPair kv.1 (intStr n)]
    | .list l => l.map (encPair kv.1)))

/-! ## `cgi.parse_qsl` / `parse_qs` (as imported via `urlparse`/`cgi`) -/

/-- The pair-processing loop of `cgi.parse_qsl(qs, keep_blank_values,
strict_parsing=False)`. -/
def qslProcess (keep_blank : Bool) (pairs : List Str) : List (Str × Str) :=
  pairs.foldr (fun nv acc =>
    if nv = [] then acc
    else
      match split1 '=' nv with
      | some (a, b) => if b ≠ [] ∨ keep_blank then (unq a, unq b) :: acc else acc
      | none => if keep_blank then (unq nv, []) :: acc else acc) []

/-- `cgi.parse_qsl`: fields are separated by `&` and `;`. -/
def parse_qsl (qs : Str) (keep_blank : Bool) : List (Str × Str) :=
  qslProcess keep_blank ((splitOnChar '&' qs).flatMap (splitOnChar ';'))

/-- `dict[name].append(value)` / `dict[name] = [value]` of `cgi.parse_qs`,
on the insertion-ordered dictionary model. -/
def dictAppendVal (d : List (Str × PyVal)) (k : Str) (v : Str) :
    List (Str × PyVal) :=
  if d.any (fun kv => kv.1 = k) then
    d.map (fun kv =>
      if kv.1 = k then
        (kv.1, match kv.2 with | .list l => PyVal.list (l ++ [v]) | x => x)
      else kv)
  else d ++ [(k, PyVal.list [v])]

/-- `cgi.parse_qs(qs)` with default `keep_blank_values=0`. -/
def parse_qs (qs : Str) : List (Str × PyVal) :=
  (parse_qsl qs false).foldl (fun d kv => dictAppendVal d kv.1 kv.2) []

/-- `d[k] = v` on the dictionary model: replace in place, else append. -/
def dictSet (d : List (Str × PyVal)) (k : Str) (v : PyVal) :
    List (Str × PyVal) :=
  if d.any (fun kv => kv.1 = k) then
    d.map (fun kv => if kv.1 = k then (k, v) else kv)
  else d ++ [(k, v)]

/-- `d.get(k)` on the parsed-dictionary model. -/
def dictGet (d : List (Str × PyVal)) (k : Str) : Option PyVal :=
  (d.find? (fun kv => kv.1 = k)).map (fun kv => kv.2)

/-! ## Python `int()` -/

/-- The six characters `str.strip()` removes. -/
def pyWhitespace : List Char := [' ', '\t', '\n', '\r', '\x0b', '\x0c']

/-- `s.strip()`. -/
def pyStrip (s : Str) : Str :=
  ((s.dropWhile (fun c => pyWhitespace.contains c)).reverse.dropWhile
    (fun c => pyWhitespace.contains c)).reverse

/-- Decimal digits to a number; `none` when empty or non-digit. -/
def digitsVal (ds : Str) : Option Nat :=
  if ds ≠ [] ∧ ds.all Char.isDigit then
    some (ds.foldl (fun a c => 10 * a + (c.toNat - 48)) 0)
  else none

/-- `int(s)` for a Python string: `none` models the `ValueError`. -/
def pyIntOfString (s : Str) : Option Int :=
  match pyStrip s with
  | '+' :: ds => (digitsVal ds).map Int.ofNat
  | '-' :: ds => (digitsVal ds).map (fun n => -(n : Int))
  | ds => (digitsVal ds).map Int.ofNat

/-! ## `paste` helpers and the WSGI environ -/

/-- `paste.httpexceptions.HTTPFound(location, headers)`: a redirect response;
`location()` returns the redirect target. -/
structure HTTPFound where
  location : Str
  headers : List (Str × Str)
deriving DecidableEq, Repr

/-- The slice of the WSGI environ the plugin reads and writes, in its state
after the parent `RedirectingFormPlugin.identify` has run.  Missing keys are
`none`. -/
structure Environ where
  path_info : Str
  script_name : Str
  query_string : Str
  who_application : Option HTTPFound
  who_logins : Option Int
  came_from : Option Str
deriving DecidableEq, Repr

/-- `paste.request.parse_dict_querystring(environ)`: `cgi.parse_qsl` of
`QUERY_STRING` with `keep_blank_values=True`, wrapped in an order-preserving
`MultiDict`.  (The environ-side cache is semantically transparent.) -/
def parse_dict_querystring (env : Environ) : List (Str × Str) :=
  parse_qsl env.query_string true

/-- `MultiDict.__getitem__`/`.get`: the first value stored under the key. -/
def mdGet (d : List (Str × Str)) (k : Str) : Option Str :=
  (d.find? (fun kv => kv.1 = k)).map (fun kv => kv.2)

/-- `MultiDict.__delitem__`: drop every pair with the key. -/
def mdDel (d : List (Str × Str)) (k : Str) : List (Str × Str) :=
  d.filter (fun kv => kv.1 ≠ k)

/-- `urllib.urlencode(md, doseq=True)` over a `MultiDict`: each stored value
is a string. -/
def urlencodeMD (d : List (Str × Str)) : Str :=
  urlencode_doseq (d.map (fun kv => (kv.1, PyVal.str kv.2)))

/-- Truthiness of an optional Python string: `None` and `''` are falsy. -/
def optStrTruthy : Option Str → Bool
  | some s => !s.isEmpty
  | none => false

/-! ## `FriendlyFormPlugin` -/

/-- The configuration state of a constructed `FriendlyFormPlugin`.  The first
three fields are the parent's positional arguments (the rememberer name,
which the plugin never reads, is omitted). -/
structure FriendlyFormPlugin where
  login_form_url : Str
  login_handler_path : Str
  logout_handler_path : Str
  login_counter_name : Str
  post_login_url : Option Str
  post_logout_url : Option Str
deriving DecidableEq, Repr

/-- `FriendlyFormPlugin.__init__`: pop the three keyword arguments
(defaulting to `None`) and replace a falsy counter name (`None` or `''`)
with `'__logins'`. -/
def FriendlyFormPlugin.make (login_form_url login_handler_path
    logout_handler_path : Str) (login_counter_name : Option Str)
    (post_login_url post_logout_url : Option Str) : FriendlyFormPlugin :=
  let lcn :=
    match login_counter_name with
    | none => ("__logins").toList
    | some s => if s = [] then ("__logins").toList else s
  ⟨login_form_url, login_handler_path, logout_handler_path, lcn,
   post_login_url, post_logout_url⟩

/-- `FriendlyFormPlugin._get_full_path(path, environ)`. -/
def get_full_path (env : Environ) (path : Str) : Str :=
  if path.take 1 = ['/'] then env.script_name ++ path else path

/-- `FriendlyFormPlugin._get_logins(environ)` without type coercion:
`None` when the counter variable is absent, its (possibly empty) string
value otherwise. -/
def FriendlyFormPlugin.get_logins (p : FriendlyFormPlugin) (env : Environ) :
    Option Str :=
  mdGet (parse_dict_querystring env) p.login_counter_name

/-- `FriendlyFormPlugin._get_logins(environ, True)`: `int()` the counter,
with both the `TypeError` (absent, hence `None`) and the `ValueError`
(malformed string) coerced to zero. -/
def FriendlyFormPlugin.get_logins_forced (p : FriendlyFormPlugin)
    (env : Environ) : Int :=
  match p.get_logins env with
  | none => 0
  | some s =>
    match pyIntOfString s with
    | some n => n
    | none => 0

/-- `FriendlyFormPlugin._insert_qs_variable(url, var_name, var_value)`. -/
def insert_qs_variable (url : Str) (var_name : Str) (var_value : PyVal) :
    Str :=
  let parts := urlparse url
  let query_parts := parse_qs parts.query
  let query_parts2 := dictSet query_parts var_name var_value
  urlunparse { parts with query := urlencode_doseq query_parts2 }

/-- `FriendlyFormPlugin._set_logins_in_url(url, logins)`. -/
def FriendlyFormPlugin.set_logins_in_url (p : FriendlyFormPlugin) (url : Str)
    (logins : Int) : Str :=
  insert_qs_variable url p.login_counter_name (.int logins)

/-- The query-string key of the referrer variable. -/
def came_from_key : Str := ("came_from").toList

/-- `FriendlyFormPlugin.identify`, as a transformer of the post-parent
environ.  The parent's identity result is passed through untouched and is
not part of the state.  `none` models the `KeyError` raised on the
login-handler path when `repoze.who.application` is missing (the parent
always sets it there). -/
def FriendlyFormPlugin.identify (p : FriendlyFormPlugin) (env : Environ) :
    Option Environ :=
  if env.path_info = p.login_handler_path then
    match env.who_application with
    | none => none
    | some app =>
      let destination := app.location
      let destination :=
        match p.post_login_url with
        | some plu =>
          if plu ≠ [] then
            let d := get_full_path env plu
            let query_parts := parse_dict_querystring env
            match mdGet query_parts came_from_key with
            | some cf => insert_qs_variable d came_from_key (.str cf)
            | none => d
          else destination
        | none => destination
      let failed_logins := p.get_logins_forced env
      let new_dest := p.set_logins_in_url destination failed_logins
      some { env with who_application := some ⟨new_dest, []⟩ }
  else if env.path_info = p.login_form_url ∨ optStrTruthy (p.get_logins env) then
    let env2 := { env with who_logins := some (p.get_logins_forced env) }
    let qs := parse_dict_querystring env2
    if qs.any (fun kv => kv.1 = p.login_counter_name) then
      some { env2 with query_string := urlencodeMD (mdDel qs p.login_counter_name) }
    else some env2
  else some env

/-- What `FriendlyFormPlugin.challenge` returns: a freshly built redirect,
or the parent's challenge response passed through as-is. -/
inductive ChallengeResult where
  | redirect (r : HTTPFound)
  | baseChallenge (c : HTTPFound)
deriving DecidableEq, Repr

/-- The location of either challenge outcome. -/
def challengeLoc : ChallengeResult → Str
  | .redirect r => r.location
  | .baseChallenge c => c.location

/-- `FriendlyFormPlugin.challenge(environ, status, app_headers,
forget_headers)`.  The parent's challenge (which consumed the status and
header arguments) is the `challenger` input; the result pairs the possibly
mutated environ with the returned response. -/
def FriendlyFormPlugin.challenge (p : FriendlyFormPlugin) (env : Environ)
    (challenger : HTTPFound) : Environ × ChallengeResult :=
  let headers := challenger.headers.filter
    (fun hv => lowerStr hv.1 ≠ ("location").toList)
  if env.path_info = p.logout_handler_path then
    let destination :=
      match p.post_logout_url with
      | some plu =>
        if plu ≠ [] then
          let d := get_full_path env plu
          match env.came_from with
          | some cf =>
            if cf ≠ [] then insert_qs_variable d came_from_key (.str cf) else d
          | none => d
        else
          match env.came_from with
          | some cf =>
            if cf ≠ [] then cf
            else if env.script_name ≠ [] then env.script_name else ['/']
          | none => if env.script_name ≠ [] then env.script_name else ['/']
      | none =>
        match env.came_from with
        | some cf =>
          if cf ≠ [] then cf
          else if env.script_name ≠ [] then env.script_name else ['/']
        | none => if env.script_name ≠ [] then env.script_name else ['/']
    (env, .redirect ⟨destination, headers⟩)
  else if env.who_logins.isSome then
    let n := env.who_logins.getD 0 + 1
    let env2 := { env with who_logins := some n }
    let destination := p.set_logins_in_url challenger.location n
    (env2, .redirect ⟨destination, headers⟩)
  else (env, .baseChallenge challenger)

/-! ## Shared concrete instances (drawn from the repository's test suite) -/

/-- The plugin as the test suite constructs it, with no optional arguments. -/
def samplePlugin : FriendlyFormPlugin :=
  .make (("/login").toList) (("/login_handler").toList)
    (("/logout_handler").toList) none none none

/-- The plugin with a post-login page configured. -/
def samplePluginPostLogin : FriendlyFormPlugin :=
  .make (("/login").toList) (("/login_handler").toList)
    (("/logout_handler").toList) none (some (("/welcome_back").toList)) none

/-- A bare environ: fields default to absent/empty except those given. -/
def baseEnviron : Environ :=
  ⟨[], [], [], none, none, none⟩

/-- The parent's challenge response in the failed-login test: a redirect to
the login form carrying the referrer, plus pipeline headers. -/
def baseChallenger : HTTPFound :=
  ⟨("/login?came_from=http%3A%2F%2Fexample.org%2Fsomewhere").toList,
   [(("Location").toList, ("ignored").toList),
    (("app").toList, ("1").toList)]⟩

/-! ## The steps of `urlsplit`, as standalone functions -/

/-- The failed-login test environ: an ordinary protected path with a
login-attempt counter of 1 in the context. -/
def sampleFailedLoginEnv : Environ :=
  { baseEnviron with path_info := ("/somewhere").toList, who_logins := some 1 }

/-- The location of the redirect the challenge hook produces on the
failed-login test environ. -/
def sampleFailedLoginLoc : Str :=
  challengeLoc (samplePlugin.challenge sampleFailedLoginEnv baseChallenger).2

/-- Follows the spec's words for the logout branch: the redirect destination
in priority order — configured post-logout URL (absolute path prefixed by
the script name, absolute URL as-is, referrer appended as a `came_from`
query variable when present), else the referrer, else the script prefix,
else the root. -/
def logoutDestinationSpec (p : FriendlyFormPlugin) (env : Environ) : Str :=
  if optStrTruthy p.post_logout_url then
    let u := p.post_logout_url.getD []
    let base := if u.take 1 = ['/'] then env.script_name ++ u else u
    if optStrTruthy env.came_from then
      insert_qs_variable base came_from_key (.str (env.came_from.getD []))
    else base
  else if optStrTruthy env.came_from then env.came_from.getD []
  else if env.script_name ≠ [] then env.script_name else ['/']

/-- The logout test environ with a script prefix and nothing else. -/
def sampleLogoutScriptEnv : Environ :=
  { baseEnviron with path_info := ("/logout_handler").toList,
                     script_name := ("/my-app").toList }

/-- The per-character form of `quote_plus`. -/
def qpChar (c : Char) : Str :=
  if c = ' ' then ['+']
  else if always_safe.contains c then [c] else pctEncode c

/-- The counter key appears among the parsed keys of a query string. -/
def qsHasKey (qs k : Str) : Bool :=
  (parse_qsl qs true).any (fun kv => kv.1 = k)

/-- A login-handler request carrying a counter in its query string. -/
def sampleLoginHandlerCounterEnv : Environ :=
  { baseEnviron with path_info := ("/login_handler").toList,
                     query_string := ("__logins=2").toList,
                     who_application := some ⟨("/some_path").toList, []⟩ }

/-- The login-form request of the test suite, counter 2 in the query. -/
def sampleLoginFormEnv : Environ :=
  { baseEnviron with path_info := ("/login").toList,
                     query_string := ("__logins=2").toList }

/-- An ordinary request whose query string carries the counter key with an
empty value. -/
def sampleEmptyCounterEnv : Environ :=
  { baseEnviron with path_info := ("/some_path").toList,
                     query_string := ("__logins=").toList }

/-- C10: omitting the counter key name, passing `None`, or passing the empty
string (the only falsy string) all yield the default name `__logins`; any
non-empty string is kept as configured. -/
theorem counter_name_defaulting (lfu lhp lop : Str)
    (plu plo : Option Str) (s : Str) (hs : s ≠ []) :
    (FriendlyFormPlugin.make lfu lhp lop none plu plo).login_counter_name
      = ("__logins").toList ∧
    (FriendlyFormPlugin.make lfu lhp lop (some []) plu plo).login_counter_name
      = ("__logins").toList ∧
    (FriendlyFormPlugin.make lfu lhp lop (some s) plu plo).login_counter_name
      = s := by
  refine ⟨rfl, rfl, ?_⟩
  simp [FriendlyFormPlugin.make, hs]

/-- Witness for C10 at a concrete non-empty counter name. -/
theorem counter_name_defaulting_witness :
    (("_c").toList : Str) ≠ [] ∧
    (FriendlyFormPlugin.make [] [] [] (some (("_c").toList)) none none).login_counter_name
      = ("_c").toList := by
  refine ⟨by decide, ?_⟩
  exact (counter_name_defaulting [] [] [] none none (("_c").toList) (by decide)).2.2

/-- C3: on the logout-handler path the challenge hook always returns a
redirect (never the base challenge), for every configuration, referrer and
script prefix. -/
theorem challenge_logout_always_redirects (p : FriendlyFormPlugin)
    (env : Environ) (challenger : HTTPFound)
    (h : env.path_info = p.logout_handler_path) :
    ∃ r, (p.challenge env challenger).2 = ChallengeResult.redirect r := by
  unfold FriendlyFormPlugin.challenge
  rw [if_pos h]
  exact ⟨_, rfl⟩

/-- Witness for C3: the logout test environ yields a redirect. -/
theorem challenge_logout_always_redirects_witness :
    ({ baseEnviron with path_info := ("/logout_handler").toList }).path_info
      = samplePlugin.logout_handler_path ∧
    ∃ r, (samplePlugin.challenge
        { baseEnviron with path_info := ("/logout_handler").toList }
        baseChallenger).2 = ChallengeResult.redirect r := by
  refine ⟨by decide, ?_⟩
  exact challenge_logout_always_redirects samplePlugin _ baseChallenger (by decide)

/-- C9: off the logout path, with no login counter in the context, the
challenge hook returns the base challenge object itself, headers untouched,
and leaves the environ unchanged. -/
theorem challenge_passthrough (p : FriendlyFormPlugin) (env : Environ)
    (challenger : HTTPFound)
    (h1 : env.path_info ≠ p.logout_handler_path)
    (h2 : env.who_logins = none) :
    p.challenge env challenger = (env, .baseChallenge challenger) := by
  simp [FriendlyFormPlugin.challenge, h1, h2]

/-- Witness for C9 on the no-logout, no-counter test environ. -/
theorem challenge_passthrough_witness :
    ({ baseEnviron with path_info := ("/somewhere").toList }).path_info
      ≠ samplePlugin.logout_handler_path ∧
    ({ baseEnviron with path_info := ("/somewhere").toList }).who_logins = none ∧
    samplePlugin.challenge { baseEnviron with path_info := ("/somewhere").toList }
        baseChallenger
      = ({ baseEnviron with path_info := ("/somewhere").toList },
         .baseChallenge baseChallenger) := by
  refine ⟨by decide, by decide, ?_⟩
  exact challenge_passthrough samplePlugin _ baseChallenger (by decide) (by decide)

/-- C2: whenever the counter is absent from the query string or its value is
not a valid integer, the coerced login counter is zero (no error escapes),
for every configured counter key name; on the login-form path the identity
hook accordingly stores zero in the context. -/
theorem logins_coerced_to_zero (p : FriendlyFormPlugin) (env : Environ)
    (h : ∀ s, p.get_logins env = some s → pyIntOfString s = none) :
    p.get_logins_forced env = 0 ∧
    (env.path_info ≠ p.login_handler_path → env.path_info = p.login_form_url →
      ∃ env2, p.identify env = some env2 ∧ env2.who_logins = some 0) := by
  have hz : p.get_logins_forced env = 0 := by
    unfold FriendlyFormPlugin.get_logins_forced
    cases hg : p.get_logins env with
    | none => rfl
    | some s => simp [h s hg]
  refine ⟨hz, fun h1 h2 => ?_⟩
  unfold FriendlyFormPlugin.identify
  rw [if_neg h1, if_pos (Or.inl h2)]
  by_cases hc :
      (parse_dict_querystring
        { env with who_logins := some (p.get_logins_forced env) }).any
        (fun kv => kv.1 = p.login_counter_name)
  · rw [if_pos hc]
    exact ⟨_, rfl, by rw [hz]⟩
  · rw [if_neg hc]
    exact ⟨_, rfl, by rw [hz]⟩

/-- Witness for C2: the default counter name with a malformed value on the
login-form path gives a stored counter of zero. -/
theorem logins_coerced_to_zero_witness :
    (∀ s, samplePlugin.get_logins
        { baseEnviron with path_info := ("/login").toList,
                           query_string := ("__logins=non_integer").toList }
        = some s → pyIntOfString s = none) ∧
    samplePlugin.get_logins_forced
        { baseEnviron with path_info := ("/login").toList,
                           query_string := ("__logins=non_integer").toList } = 0 ∧
    ∃ env2, samplePlugin.identify
        { baseEnviron with path_info := ("/login").toList,
                           query_string := ("__logins=non_integer").toList }
        = some env2 ∧ env2.who_logins = some 0 := by
  have h : ∀ s, samplePlugin.get_logins
      { baseEnviron with path_info := ("/login").toList,
                         query_string := ("__logins=non_integer").toList }
      = some s → pyIntOfString s = none := by decide
  have main := logins_coerced_to_zero samplePlugin
    { baseEnviron with path_info := ("/login").toList,
                       query_string := ("__logins=non_integer").toList } h
  exact ⟨h, main.1, main.2 (by decide) (by decide)⟩

/-- C7: on the login-handler path with no post-login page, no counter in the
query string, and the pipeline's chosen destination `/some_path`, the
identity hook overwrites the redirect target with
`/some_path?__logins=0`. -/
theorem identify_login_handler_no_postlogin :
    (samplePlugin.identify
        { baseEnviron with
            path_info := ("/login_handler").toList,
            query_string := ("came_from=%2Fsome_path").toList,
            who_application := some ⟨("/some_path").toList, []⟩ }).map
        (fun e => e.who_application.map (fun a => a.location))
      = some (some (("/some_path?__logins=0").toList)) := by
  decide

/-- C8: on the login-handler path with post-login page `/welcome_back`,
empty script prefix, no referrer, and counter value 2 in the incoming query
string, the identity hook sets the redirect target to
`/welcome_back?__logins=2`. -/
theorem identify_login_handler_postlogin_counter :
    (samplePluginPostLogin.identify
        { baseEnviron with
            path_info := ("/login_handler").toList,
            query_string := ("__logins=2").toList,
            who_application := some ⟨("/some_path").toList, []⟩ }).map
        (fun e => e.who_application.map (fun a => a.location))
      = some (some (("/welcome_back?__logins=2").toList)) := by
  decide

/-- C1: off the logout path, a context counter of `n` is bumped to `n + 1`
and the result is a redirect to the base challenge's location with the
counter variable set to `n + 1`; in particular, with a counter of 1 the
redirect goes to the login form with counter 2 and the referrer query
parameter of the base location survives. -/
theorem challenge_failed_login_increments (p : FriendlyFormPlugin)
    (env : Environ) (challenger : HTTPFound) (n : Int)
    (hpath : env.path_info ≠ p.logout_handler_path)
    (hlog : env.who_logins = some n) :
    (p.challenge env challenger).1.who_logins = some (n + 1) ∧
    (p.challenge env challenger).2 =
      .redirect ⟨p.set_logins_in_url challenger.location (n + 1),
        challenger.headers.filter
          (fun hv => lowerStr hv.1 ≠ ("location").toList)⟩ ∧
    ((urlparse sampleFailedLoginLoc).path = ("/login").toList ∧
     dictGet (parse_qs (urlparse sampleFailedLoginLoc).query)
         (("__logins").toList) = some (.list [("2").toList]) ∧
     dictGet (parse_qs (urlparse sampleFailedLoginLoc).query)
         (("came_from").toList)
       = some (.list [("http://example.org/somewhere").toList])) := by
  refine ⟨?_, ?_, by decide, by decide, by decide⟩
  · simp [FriendlyFormPlugin.challenge, hpath, hlog]
  · simp [FriendlyFormPlugin.challenge, hpath, hlog]

/-- Witness for C1 on the failed-login test environ. -/
theorem challenge_failed_login_increments_witness :
    sampleFailedLoginEnv.path_info ≠ samplePlugin.logout_handler_path ∧
    sampleFailedLoginEnv.who_logins = some 1 ∧
    (samplePlugin.challenge sampleFailedLoginEnv baseChallenger).1.who_logins
      = some 2 ∧
    (samplePlugin.challenge sampleFailedLoginEnv baseChallenger).2 =
      .redirect ⟨samplePlugin.set_logins_in_url baseChallenger.location 2,
        baseChallenger.headers.filter
          (fun hv => lowerStr hv.1 ≠ ("location").toList)⟩ := by
  have main := challenge_failed_login_increments samplePlugin
    sampleFailedLoginEnv baseChallenger 1 (by decide) (by decide)
  exact ⟨by decide, by decide, main.1, main.2.1⟩

/-- C4: on the logout path the redirect destination follows the configured
priority order; in particular, with no post-logout URL, no referrer and
script prefix `/my-app`, the redirect is `/my-app`. -/
theorem challenge_logout_destination_priority (p : FriendlyFormPlugin)
    (env : Environ) (challenger : HTTPFound)
    (h : env.path_info = p.logout_handler_path) :
    (p.challenge env challenger).2 =
      .redirect ⟨logoutDestinationSpec p env,
        challenger.headers.filter
          (fun hv => lowerStr hv.1 ≠ ("location").toList)⟩ ∧
    challengeLoc (samplePlugin.challenge sampleLogoutScriptEnv baseChallenger).2
      = ("/my-app").toList := by
  refine ⟨?_, by decide⟩
  unfold FriendlyFormPlugin.challenge logoutDestinationSpec
  rw [if_pos h]
  cases hplo : p.post_logout_url with
  | none =>
    cases hcf : env.came_from with
    | none => simp [optStrTruthy]
    | some cf =>
      by_cases hc : cf = [] <;>
        simp [optStrTruthy, hc, List.isEmpty_iff]
  | some plu =>
    by_cases hp : plu = []
    · cases hcf : env.came_from with
      | none => simp [optStrTruthy, hp]
      | some cf =>
        by_cases hc : cf = [] <;>
          simp [optStrTruthy, hp, hc, List.isEmpty_iff]
    · cases hcf : env.came_from with
      | none => simp [optStrTruthy, hp, get_full_path, List.isEmpty_iff]
      | some cf =>
        by_cases hc : cf = [] <;>
          simp [optStrTruthy, hp, hc, get_full_path, List.isEmpty_iff]

/-- Witness for C4 on the logout-with-script-prefix test environ. -/
theorem challenge_logout_destination_priority_witness :
    sampleLogoutScriptEnv.path_info = samplePlugin.logout_handler_path ∧
    (samplePlugin.challenge sampleLogoutScriptEnv baseChallenger).2 =
      .redirect ⟨logoutDestinationSpec samplePlugin sampleLogoutScriptEnv,
        baseChallenger.headers.filter
          (fun hv => lowerStr hv.1 ≠ ("location").toList)⟩ := by
  have main := challenge_logout_destination_priority samplePlugin
    sampleLogoutScriptEnv baseChallenger (by decide)
  exact ⟨by decide, main.1⟩

/-! ## Lemmas: splitting and joining -/

theorem split1_of_not_mem {c : Char} {s : Str} (h : c ∉ s) :
    split1 c s = none := by
  induction s with
  | nil => rfl
  | cons x xs ih =>
    simp only [List.mem_cons, not_or] at h
    simp [split1, Ne.symm h.1, ih h.2]

theorem split1_append {c : Char} {a b : Str} (h : c ∉ a) :
    split1 c (a ++ c :: b) = some (a, b) := by
  induction a with
  | nil => simp [split1]
  | cons x xs ih =>
    simp only [List.mem_cons, not_or] at h
    simp [split1, Ne.symm h.1, ih h.2]

theorem split1_eq_some {c : Char} {s a b : Str}
    (h : split1 c s = some (a, b)) : s = a ++ c :: b ∧ c ∉ a := by
  induction s generalizing a b with
  | nil => simp [split1] at h
  | cons x xs ih =>
    by_cases hx : x = c
    · subst hx
      rw [split1, if_pos rfl] at h
      injection h with h2
      cases h2
      simp
    · rw [split1, if_neg hx] at h
      cases hs : split1 c xs with
      | none => rw [hs] at h; simp [Option.map] at h
      | some p =>
        obtain ⟨a2, b2⟩ := p
        rw [hs] at h
        simp only [Option.map] at h
        injection h with h2
        cases h2
        obtain ⟨ih1, ih2⟩ := ih hs
        refine ⟨by rw [ih1]; rfl, ?_⟩
        simp only [List.mem_cons, not_or]
        exact ⟨fun hc => hx hc.symm, ih2⟩

theorem split1_eq_none {c : Char} {s : Str} (h : split1 c s = none) :
    c ∉ s := by
  induction s with
  | nil => simp
  | cons x xs ih =>
    by_cases hx : x = c
    · subst hx; simp [split1] at h
    · rw [split1, if_neg hx] at h
      cases hs : split1 c xs with
      | none =>
        simp only [List.mem_cons, not_or]
        exact ⟨fun hc => hx hc.symm, ih hs⟩
      | some p => rw [hs] at h; simp [Option.map] at h

theorem splitOnChar_of_not_mem {c : Char} {s : Str} (h : c ∉ s) :
    splitOnChar c s = [s] := by
  induction s with
  | nil => rfl
  | cons x xs ih =>
    simp only [List.mem_cons, not_or] at h
    simp [splitOnChar, Ne.symm h.1, ih h.2]

theorem splitOnChar_append {c : Char} {a t : Str} (h : c ∉ a) :
    splitOnChar c (a ++ c :: t) = a :: splitOnChar c t := by
  induction a with
  | nil => simp [splitOnChar]
  | cons x xs ih =>
    simp only [List.mem_cons, not_or] at h
    have hr := ih h.2
    simp [splitOnChar, Ne.symm h.1, hr]

theorem hexUpperDigit_mem_safe {n : Nat} (h : n < 16) :
    hexUpperDigit n ∈ always_safe := by
  interval_cases n <;> decide

theorem hexUpperDigit_upperHex {n : Nat} (h : n < 16) :
    isUpperHex (hexUpperDigit n) = true := by
  interval_cases n <;> decide

theorem hexVal_hexUpperDigit {n : Nat} (h : n < 16) :
    hexVal (hexUpperDigit n) = n := by
  interval_cases n <;> decide

theorem pctEncode_no_space (c : Char) :
    ' ' ∉ pctEncode c := by
  have h1 : hexUpperDigit (c.toNat / 16 % 16) ≠ ' ' := by
    intro he
    have := hexUpperDigit_mem_safe (Nat.mod_lt _ (by norm_num) : c.toNat / 16 % 16 < 16)
    rw [he] at this
    simp [always_safe] at this
  have h2 : hexUpperDigit (c.toNat % 16) ≠ ' ' := by
    intro he
    have := hexUpperDigit_mem_safe (Nat.mod_lt _ (by norm_num) : c.toNat % 16 < 16)
    rw [he] at this
    simp [always_safe] at this
  simp only [pctEncode, List.mem_cons, List.not_mem_nil, or_false, not_or]
  exact ⟨by decide, fun he => h1 he.symm, fun he => h2 he.symm⟩

theorem quoteChar_space_map (c : Char) :
    (quoteChar [' '] c).map (fun d => if d = ' ' then '+' else d)
      = qpChar c := by
  by_cases hc : c = ' '
  · subst hc; decide
  · by_cases hsafe : always_safe.contains c = true
    · unfold quoteChar qpChar
      rw [if_pos (Or.inl hsafe), if_neg hc, if_pos hsafe]
      simp [hc]
    · have hplus : ¬ (always_safe.contains c = true ∨
          ([' '] : List Char).contains c = true) := by
        rintro (h | h)
        · exact hsafe h
        · rw [List.contains_cons] at h
          simp at h
          exact hc h
      unfold quoteChar qpChar
      rw [if_neg hplus, if_neg hc, if_neg hsafe]
      have hmap : (pctEncode c).map (fun d => if d = ' ' then '+' else d)
          = (pctEncode c).map id := by
        apply List.map_congr_left
        intro d hd
        have hne : d ≠ ' ' := fun he => pctEncode_no_space c (he ▸ hd)
        simp [hne]
      rw [hmap, List.map_id]

theorem quoteChar_nil (c : Char) (hc : c ≠ ' ') :
    quoteChar [] c = qpChar c := by
  unfold quoteChar qpChar
  rw [if_neg hc]
  by_cases hsafe : always_safe.contains c = true
  · rw [if_pos (Or.inl hsafe), if_pos hsafe]
  · have hor : ¬ (always_safe.contains c = true ∨
        ([] : List Char).contains c = true) := by
      rintro (h | h)
      · exact hsafe h
      · simp [List.contains_nil] at h
    rw [if_neg hor, if_neg hsafe]

theorem quote_plus_eq_flat (s : Str) :
    quote_plus s = (s.map qpChar).flatten := by
  unfold quote_plus
  by_cases hsp : ' ' ∈ s
  · rw [if_pos hsp]
    unfold pyQuote
    rw [List.map_flatten, List.map_map]
    congr 1
    apply List.map_congr_left
    intro c _
    exact quoteChar_space_map c
  · rw [if_neg hsp]
    unfold pyQuote
    congr 1
    apply List.map_congr_left
    intro c hc
    exact quoteChar_nil c (fun he => hsp (he ▸ hc))

theorem unquote_cons_ne {c : Char} (s : Str) (h : c ≠ '%') :
    unquote (c :: s) = c :: unquote s := by
  rcases s with _ | ⟨c1, _ | ⟨c2, rest⟩⟩ <;> simp [unquote, h]

theorem unquote_pct {c1 c2 : Char} (s : Str)
    (h : validHexPair c1 c2 = true) :
    unquote ('%' :: c1 :: c2 :: s)
      = Char.ofNat (16 * hexVal c1 + hexVal c2) :: unquote s := by
  simp [unquote, h]

theorem validHexPair_enc {a b : Nat} (ha : a < 16) (hb : b < 16) :
    validHexPair (hexUpperDigit a) (hexUpperDigit b) = true := by
  unfold validHexPair
  rw [hexUpperDigit_upperHex ha, hexUpperDigit_upperHex hb]
  simp

theorem mem_always_safe_ne_plus {c : Char} (h : c ∈ always_safe) :
    c ≠ '+' := by
  intro he
  rw [he] at h
  simp [always_safe] at h

theorem mem_always_safe_ne_pct {c : Char} (h : c ∈ always_safe) :
    c ≠ '%' := by
  intro he
  rw [he] at h
  simp [always_safe] at h

theorem contains_always_safe_mem {c : Char}
    (h : always_safe.contains c = true) : c ∈ always_safe := by
  simpa using h

/-- Percent-coding round trip on byte strings: CGI decoding of
`quote_plus` output recovers the original string. -/
theorem unq_quote_plus {s : Str} (hb : allBytes s) :
    unq (quote_plus s) = s := by
  rw [quote_plus_eq_flat]
  induction s with
  | nil => rfl
  | cons c cs ih =>
    have hbc : c.toNat < 256 := hb c (List.mem_cons_self ..)
    have hbs : allBytes cs := fun d hd => hb d (List.mem_cons_of_mem _ hd)
    rw [List.map_cons, List.flatten_cons]
    show unquote (plusToSpace (qpChar c ++ (cs.map qpChar).flatten)) = c :: cs
    unfold plusToSpace
    rw [List.map_append]
    by_cases hc : c = ' '
    · subst hc
      have hq : qpChar ' ' = ['+'] := by decide
      rw [hq]
      have hone : (['+'] : Str).map (fun d => if d = '+' then ' ' else d)
          = [' '] := by decide
      rw [hone, List.singleton_append, unquote_cons_ne _ (by decide)]
      exact congrArg (List.cons ' ') (ih hbs)
    · by_cases hsafe : always_safe.contains c = true
      · have hmem := contains_always_safe_mem hsafe
        have hq : qpChar c = [c] := by
          unfold qpChar
          rw [if_neg hc, if_pos hsafe]
        rw [hq]
        have hplus : c ≠ '+' := mem_always_safe_ne_plus hmem
        have hpct : c ≠ '%' := mem_always_safe_ne_pct hmem
        have hone : ([c] : Str).map (fun d => if d = '+' then ' ' else d)
            = [c] := by simp [hplus]
        rw [hone, List.singleton_append, unquote_cons_ne _ hpct]
        exact congrArg (List.cons c) (ih hbs)
      · have hq : qpChar c = pctEncode c := by
          unfold qpChar
          rw [if_neg hc, if_neg hsafe]
        rw [hq]
        have hd1 : c.toNat / 16 % 16 < 16 := Nat.mod_lt _ (by norm_num)
        have hd2 : c.toNat % 16 < 16 := Nat.mod_lt _ (by norm_num)
        have hm1 := hexUpperDigit_mem_safe hd1
        have hm2 := hexUpperDigit_mem_safe hd2
        unfold pctEncode
        simp only [List.map_cons, List.map_nil, List.cons_append,
          List.nil_append]
        rw [if_neg (by decide : ¬ ('%' : Char) = '+')]
        rw [if_neg (mem_always_safe_ne_plus hm1)]
        rw [if_neg (mem_always_safe_ne_plus hm2)]
        rw [unquote_pct _ (validHexPair_enc hd1 hd2)]
        rw [hexVal_hexUpperDigit hd1, hexVal_hexUpperDigit hd2]
        have hdiv : c.toNat / 16 % 16 = c.toNat / 16 :=
          Nat.mod_eq_of_lt (Nat.div_lt_of_lt_mul (by omega))
        rw [hdiv, Nat.div_add_mod, Char.ofNat_toNat]
        exact congrArg (List.cons c) (ih hbs)

/-- Every character of `quote_plus` output is a safe character, `+` or `%`. -/
theorem quote_plus_chars {c : Char} {s : Str} (h : c ∈ quote_plus s) :
    c ∈ always_safe ∨ c = '+' ∨ c = '%' := by
  rw [quote_plus_eq_flat] at h
  rw [List.mem_flatten] at h
  obtain ⟨blk, hblk, hc⟩ := h
  rw [List.mem_map] at hblk
  obtain ⟨d, _, hd⟩ := hblk
  subst hd
  unfold qpChar at hc
  by_cases hdsp : d = ' '
  · rw [if_pos hdsp] at hc
    simp at hc
    exact Or.inr (Or.inl hc)
  · rw [if_neg hdsp] at hc
    by_cases hsafe : always_safe.contains d = true
    · rw [if_pos hsafe] at hc
      simp at hc
      subst hc
      exact Or.inl (contains_always_safe_mem hsafe)
    · rw [if_neg hsafe] at hc
      unfold pctEncode at hc
      simp only [List.mem_cons, List.not_mem_nil, or_false] at hc
      rcases hc with h1 | h2 | h3
      · exact Or.inr (Or.inr h1)
      · exact Or.inl (h2 ▸ hexUpperDigit_mem_safe (Nat.mod_lt _ (by norm_num)))
      · exact Or.inl (h3 ▸ hexUpperDigit_mem_safe (Nat.mod_lt _ (by norm_num)))

/-- `quote_plus` of a non-empty string is non-empty. -/
theorem quote_plus_ne_nil {s : Str} (h : s ≠ []) :
    quote_plus s ≠ [] := by
  rw [quote_plus_eq_flat]
  cases s with
  | nil => exact absurd rfl h
  | cons c cs =>
    rw [List.map_cons, List.flatten_cons]
    intro hj
    have : qpChar c = [] := by
      rcases List.append_eq_nil.mp hj with ⟨h1, _⟩
      exact h1
    unfold qpChar at this
    by_cases hc : c = ' '
    · rw [if_pos hc] at this; exact List.cons_ne_nil _ _ this
    · rw [if_neg hc] at this
      by_cases hsafe : always_safe.contains c = true
      · rw [if_pos hsafe] at this; exact List.cons_ne_nil _ _ this
      · rw [if_neg hsafe] at this
        exact List.cons_ne_nil _ _ this

/-! ## Lemmas: `urlencode` / `parse_qsl` inversion -/

theorem not_mem_quote_plus {x : Char} {s : Str} (h1 : x ∉ always_safe)
    (h2 : x ≠ '+') (h3 : x ≠ '%') : x ∉ quote_plus s := by
  intro hmem
  rcases quote_plus_chars hmem with h | h | h
  · exact h1 h
  · exact h2 h
  · exact h3 h

theorem not_mem_encPair {x : Char} {k v : Str} (h1 : x ∉ always_safe)
    (h2 : x ≠ '+') (h3 : x ≠ '%') (h4 : x ≠ '=') : x ∉ encPair k v := by
  unfold encPair
  intro hmem
  rcases List.mem_append.mp hmem with h | h
  · exact not_mem_quote_plus h1 h2 h3 h
  · rcases List.mem_cons.mp h with h | h
    · exact h4 h
    · exact not_mem_quote_plus h1 h2 h3 h

theorem encPair_ne_nil (k v : Str) : encPair k v ≠ [] := by
  simp [encPair]

theorem qslProcess_cons_encPair (kb : Bool) (k v : Str) (tail : List Str)
    (hk : allBytes k) (hv : allBytes v) (hne : kb = false → v ≠ []) :
    qslProcess kb (encPair k v :: tail) = (k, v) :: qslProcess kb tail := by
  unfold qslProcess
  rw [List.foldr_cons]
  rw [if_neg (by simpa using encPair_ne_nil k v)]
  have hsplit : split1 '=' (encPair k v) = some (quote_plus k, quote_plus v) :=
    split1_append (not_mem_quote_plus (by decide) (by decide) (by decide))
  have hcond : quote_plus v ≠ [] ∨ kb = true := by
    by_cases hkb : kb = true
    · exact Or.inr hkb
    · exact Or.inl (quote_plus_ne_nil (hne (by simpa using hkb)))
  simp only [hsplit]
  rw [if_pos hcond, unq_quote_plus hk, unq_quote_plus hv]

/-- `cgi.parse_qsl` inverts `urlencode` on a flat pair list of byte strings
(values must be non-empty unless blank values are kept). -/
theorem parse_qsl_encPairs (kb : Bool) (entries : List (Str × Str))
    (h : ∀ kv ∈ entries, allBytes kv.1 ∧ allBytes kv.2 ∧
      (kb = false → kv.2 ≠ [])) :
    parse_qsl (joinAmp (entries.map (fun kv => encPair kv.1 kv.2))) kb
      = entries := by
  induction entries with
  | nil => rfl
  | cons kv rest ih =>
    obtain ⟨hk, hv, hne⟩ := h kv (List.mem_cons_self ..)
    have hrest : ∀ kv2 ∈ rest, allBytes kv2.1 ∧ allBytes kv2.2 ∧
        (kb = false → kv2.2 ≠ []) :=
      fun kv2 hm => h kv2 (List.mem_cons_of_mem _ hm)
    have hAmp : '&' ∉ encPair kv.1 kv.2 :=
      not_mem_encPair (by decide) (by decide) (by decide) (by decide)
    have hSemi : ';' ∉ encPair kv.1 kv.2 :=
      not_mem_encPair (by decide) (by decide) (by decide) (by decide)
    cases rest with
    | nil =>
      unfold parse_qsl
      have hJ : joinAmp ([kv].map (fun kv => encPair kv.1 kv.2))
          = encPair kv.1 kv.2 := by simp [joinAmp]
      rw [hJ, splitOnChar_of_not_mem hAmp]
      have hB : ([encPair kv.1 kv.2].flatMap (splitOnChar ';'))
          = [encPair kv.1 kv.2] := by
        simp [splitOnChar_of_not_mem hSemi]
      rw [hB, qslProcess_cons_encPair kb kv.1 kv.2 [] hk hv hne]
      rfl
    | cons r rs =>
      have hJ : joinAmp (((kv :: r :: rs)).map (fun kv => encPair kv.1 kv.2))
          = encPair kv.1 kv.2 ++ '&' ::
            joinAmp ((r :: rs).map (fun kv => encPair kv.1 kv.2)) := by
        simp [joinAmp, List.map_cons]
      unfold parse_qsl
      rw [hJ, splitOnChar_append hAmp]
      have hB : ((encPair kv.1 kv.2 :: splitOnChar '&'
            (joinAmp ((r :: rs).map (fun kv => encPair kv.1 kv.2)))).flatMap
            (splitOnChar ';'))
          = encPair kv.1 kv.2 :: ((splitOnChar '&'
            (joinAmp ((r :: rs).map (fun kv => encPair kv.1 kv.2)))).flatMap
            (splitOnChar ';')) := by
        rw [List.flatMap_cons, splitOnChar_of_not_mem hSemi]
        rfl
      rw [hB, qslProcess_cons_encPair kb kv.1 kv.2 _ hk hv hne]
      exact congrArg (List.cons (kv.1, kv.2)) (ih hrest)

/-! ## Lemmas: byte-string preservation through CGI decoding -/

theorem toNat_ofNat_byte {n : Nat} (h : n < 256) : (Char.ofNat n).toNat = n := by
  unfold Char.ofNat
  rw [dif_pos (Or.inl (by omega) : Nat.isValidChar n)]
  rfl

theorem hexVal_lt_16 {c : Char}
    (h : isLowerHex c = true ∨ isUpperHex c = true) : hexVal c < 16 := by
  unfold hexVal
  by_cases hd : c.isDigit = true
  · rw [if_pos hd]
    have hb : 48 ≤ c.toNat ∧ c.toNat ≤ 57 := by
      simp [Char.isDigit] at hd
      exact ⟨hd.1, hd.2⟩
    omega
  · rw [if_neg hd]
    rcases h with h | h
    · unfold isLowerHex at h
      rcases Bool.or_eq_true .. |>.mp h with h1 | h1
      · exact absurd h1 hd
      · obtain ⟨hge, hle⟩ := Bool.and_eq_true .. |>.mp h1
        have hge2 : 97 ≤ c.toNat := of_decide_eq_true hge
        have hle2 : c.toNat ≤ 102 := of_decide_eq_true hle
        rw [if_pos (of_decide_eq_true hge : ('a' : Char) ≤ c)]
        omega
    · unfold isUpperHex at h
      rcases Bool.or_eq_true .. |>.mp h with h1 | h1
      · exact absurd h1 hd
      · obtain ⟨hge, hle⟩ := Bool.and_eq_true .. |>.mp h1
        have hge2 : 65 ≤ c.toNat := of_decide_eq_true hge
        have hle2 : c.toNat ≤ 70 := of_decide_eq_true hle
        have hna : ¬ (('a' : Char) ≤ c) := by
          intro hge3
          have : 97 ≤ c.toNat := hge3
          omega
        rw [if_neg hna]
        omega

theorem validHexPair_bounds {c1 c2 : Char} (h : validHexPair c1 c2 = true) :
    hexVal c1 < 16 ∧ hexVal c2 < 16 := by
  unfold validHexPair at h
  rcases Bool.or_eq_true .. |>.mp h with h1 | h1
  · obtain ⟨ha, hb⟩ := Bool.and_eq_true .. |>.mp h1
    exact ⟨hexVal_lt_16 (Or.inl ha), hexVal_lt_16 (Or.inl hb)⟩
  · obtain ⟨ha, hb⟩ := Bool.and_eq_true .. |>.mp h1
    exact ⟨hexVal_lt_16 (Or.inr ha), hexVal_lt_16 (Or.inr hb)⟩

theorem unquote_pct_invalid {c1 c2 : Char} (s : Str)
    (h : validHexPair c1 c2 = false) :
    unquote ('%' :: c1 :: c2 :: s) = '%' :: unquote (c1 :: c2 :: s) := by
  simp [unquote, h]

/-- A character of a CGI-unquoted string comes from the input string or is a
decoded byte. -/
theorem mem_unquote_aux :
    ∀ (n : Nat) (s : Str), s.length ≤ n →
      ∀ c ∈ unquote s, c ∈ s ∨ c.toNat < 256 := by
  intro n
  induction n with
  | zero =>
    intro s hlen c hc
    have hnil : s = [] := List.eq_nil_of_length_eq_zero
      (Nat.le_zero.mp hlen)
    subst hnil
    simp [unquote] at hc
  | succ n ih =>
    intro s hlen c hc
    cases s with
    | nil => simp [unquote] at hc
    | cons c0 rest =>
      rw [List.length_cons, Nat.add_le_add_iff_right] at hlen
      by_cases hc0 : c0 = '%'
      · subst hc0
        match rest, hlen, hc with
        | [], hlen, hc =>
          have he : unquote ['%'] = ['%'] := rfl
          rw [he] at hc
          exact Or.inl hc
        | [c1], hlen, hc =>
          have he : unquote ['%', c1] = '%' :: unquote [c1] := rfl
          rw [he] at hc
          rcases List.mem_cons.mp hc with h1 | h2
          · exact Or.inl (by simp [h1])
          · rcases ih [c1] hlen c h2 with h3 | h3
            · exact Or.inl (by simp [List.mem_singleton.mp h3])
            · exact Or.inr h3
        | c1 :: c2 :: rest2, hlen, hc =>
          by_cases hv : validHexPair c1 c2 = true
          · rw [unquote_pct rest2 hv] at hc
            rcases List.mem_cons.mp hc with h1 | h2
            · right
              obtain ⟨hb1, hb2⟩ := validHexPair_bounds hv
              rw [h1, toNat_ofNat_byte (by omega)]
              omega
            · have hlen2 : rest2.length ≤ n := by
                simp at hlen
                omega
              rcases ih rest2 hlen2 c h2 with h3 | h3
              · exact Or.inl (by simp [h3])
              · exact Or.inr h3
          · rw [unquote_pct_invalid rest2 (by simpa using hv)] at hc
            rcases List.mem_cons.mp hc with h1 | h2
            · exact Or.inl (by simp [h1])
            · rcases ih (c1 :: c2 :: rest2) hlen c h2 with h3 | h3
              · rcases List.mem_cons.mp h3 with h4 | h4
                · exact Or.inl (by simp [h4])
                · exact Or.inl (by simp [List.mem_cons.mp h4])
              · exact Or.inr h3
      · rw [unquote_cons_ne rest hc0] at hc
        rcases List.mem_cons.mp hc with h1 | h2
        · exact Or.inl (by simp [h1])
        · rcases ih rest hlen c h2 with h3 | h3
          · exact Or.inl (by simp [h3])
          · exact Or.inr h3

theorem mem_unquote (s : Str) (c : Char) (h : c ∈ unquote s) :
    c ∈ s ∨ c.toNat < 256 :=
  mem_unquote_aux s.length s le_rfl c h

theorem allBytes_unq {s : Str} (h : allBytes s) : allBytes (unq s) := by
  intro c hc
  rcases mem_unquote (plusToSpace s) c hc with h1 | h1
  · unfold plusToSpace at h1
    rw [List.mem_map] at h1
    obtain ⟨d, hd, hfd⟩ := h1
    by_cases hdp : d = '+'
    · rw [← hfd, if_pos hdp]
      decide
    · rw [← hfd, if_neg hdp]
      exact h d hd
  · exact h1

theorem splitOnChar_ne_nil (sep : Char) (s : Str) :
    splitOnChar sep s ≠ [] := by
  cases s with
  | nil => simp [splitOnChar]
  | cons c rest =>
    unfold splitOnChar
    by_cases hc : c = sep
    · simp [hc]
    · rw [if_neg hc]
      cases hs : splitOnChar sep rest <;> simp

theorem mem_of_mem_splitOnChar {sep : Char} {s p : Str}
    (hp : p ∈ splitOnChar sep s) : ∀ c ∈ p, c ∈ s := by
  induction s generalizing p with
  | nil =>
    simp [splitOnChar] at hp
    subst hp
    intro c hc
    simp at hc
  | cons x xs ih =>
    unfold splitOnChar at hp
    by_cases hx : x = sep
    · rw [if_pos hx] at hp
      rcases List.mem_cons.mp hp with h1 | h2
      · subst h1; intro c hc; simp at hc
      · intro c hc
        exact List.mem_cons_of_mem _ (ih h2 c hc)
    · rw [if_neg hx] at hp
      cases hs : splitOnChar sep xs with
      | nil => exact absurd hs (splitOnChar_ne_nil sep xs)
      | cons s1 ss =>
        rw [hs] at hp
        rcases List.mem_cons.mp hp with h1 | h2
        · subst h1
          intro c hc
          rcases List.mem_cons.mp hc with h3 | h4
          · simp [h3]
          · have hs1 : s1 ∈ splitOnChar sep xs := by rw [hs]; simp
            exact List.mem_cons_of_mem _ (ih hs1 c h4)
        · intro c hc
          have hpmem : p ∈ splitOnChar sep xs := by
            rw [hs]
            exact List.mem_cons_of_mem _ h2
          exact List.mem_cons_of_mem _ (ih hpmem c hc)

theorem qslProcess_allBytes (kb : Bool) (pieces : List Str)
    (hp : ∀ p ∈ pieces, allBytes p) :
    ∀ kv ∈ qslProcess kb pieces, allBytes kv.1 ∧ allBytes kv.2 := by
  induction pieces with
  | nil => intro kv hm; simp [qslProcess] at hm
  | cons p ps ih =>
    have hpp : allBytes p := hp p (List.mem_cons_self ..)
    have hps : ∀ q ∈ ps, allBytes q :=
      fun q hq => hp q (List.mem_cons_of_mem _ hq)
    intro kv hm
    unfold qslProcess at hm
    rw [List.foldr_cons] at hm
    by_cases hnil : p = []
    · rw [if_pos hnil] at hm
      exact ih hps kv hm
    · rw [if_neg hnil] at hm
      cases hsp : split1 '=' p with
      | some ab =>
        obtain ⟨a, b⟩ := ab
        simp only [hsp] at hm
        obtain ⟨hdec, hna⟩ := split1_eq_some hsp
        have hab : allBytes a ∧ allBytes b := by
          constructor
          · intro c hc
            exact hpp c (by rw [hdec]; simp [hc])
          · intro c hc
            exact hpp c (by rw [hdec]; simp [hc])
        by_cases hcond : b ≠ [] ∨ kb = true
        · rw [if_pos hcond] at hm
          rcases List.mem_cons.mp hm with h1 | h2
          · rw [h1]
            exact ⟨allBytes_unq hab.1, allBytes_unq hab.2⟩
          · exact ih hps kv h2
        · rw [if_neg hcond] at hm
          exact ih hps kv hm
      | none =>
        simp only [hsp] at hm
        by_cases hkb : kb = true
        · rw [if_pos hkb] at hm
          rcases List.mem_cons.mp hm with h1 | h2
          · rw [h1]
            refine ⟨allBytes_unq hpp, ?_⟩
            intro c hc
            simp at hc
          · exact ih hps kv h2
        · rw [if_neg hkb] at hm
          exact ih hps kv hm

theorem parse_qsl_allBytes {qs : Str} (h : allBytes qs) (kb : Bool) :
    ∀ kv ∈ parse_qsl qs kb, allBytes kv.1 ∧ allBytes kv.2 := by
  unfold parse_qsl
  apply qslProcess_allBytes
  intro p hp c hc
  rw [List.mem_flatMap] at hp
  obtain ⟨q, hq, hpq⟩ := hp
  exact h c (mem_of_mem_splitOnChar hq c (mem_of_mem_splitOnChar hpq c hc))

theorem urlencodeMD_eq_encPairs (pairs : List (Str × Str)) :
    urlencodeMD pairs
      = joinAmp (pairs.map (fun kv => encPair kv.1 kv.2)) := by
  unfold urlencodeMD urlencode_doseq
  congr 1
  induction pairs with
  | nil => rfl
  | cons kv rest ih =>
    rw [List.map_cons, List.flatMap_cons, List.map_cons, ih]
    rfl

/-- `urlencode` of a `MultiDict` of byte strings parses back (with blanks
kept) to exactly the stored pairs. -/
theorem parse_qsl_urlencodeMD (pairs : List (Str × Str))
    (h : ∀ kv ∈ pairs, allBytes kv.1 ∧ allBytes kv.2) :
    parse_qsl (urlencodeMD pairs) true = pairs := by
  rw [urlencodeMD_eq_encPairs]
  exact parse_qsl_encPairs true pairs
    (fun kv hm => ⟨(h kv hm).1, (h kv hm).2, by simp⟩)

/-- C5 counterexample, both deviations of the claim from the code.
(a) On the login-handler path the `elif` branch is skipped, so a counter
present in the query string is neither parsed into the context nor
stripped.  (b) Off both special paths, a counter key that is present in
the query string but has an empty (falsy) value fails the `elif`'s
`self._get_logins(environ)` truthiness test, so `identify` leaves the
request untouched: the key stays visible and no counter is stored. -/
theorem identify_counter_kept_counterexample :
    ((samplePlugin.identify sampleLoginHandlerCounterEnv).map
        (fun e => qsHasKey e.query_string samplePlugin.login_counter_name)
      = some true ∧
     (samplePlugin.identify sampleLoginHandlerCounterEnv).map
        (fun e => e.who_logins) = some none) ∧
    (qsHasKey sampleEmptyCounterEnv.query_string
        samplePlugin.login_counter_name = true ∧
     sampleEmptyCounterEnv.path_info ≠ samplePlugin.login_handler_path ∧
     sampleEmptyCounterEnv.path_info ≠ samplePlugin.login_form_url ∧
     samplePlugin.identify sampleEmptyCounterEnv
       = some sampleEmptyCounterEnv) := by
  decide

/-- C5 (amended): for every request that is not on the login-handler path,
and whose path is the login-form path or whose query string carries the
counter key with a non-empty value, the identity hook stores the coerced
integer counter in the context and the counter key no longer appears in
the visible query string. -/
theorem identify_login_form_parses_and_strips (p : FriendlyFormPlugin)
    (env : Environ)
    (hnl : env.path_info ≠ p.login_handler_path)
    (hcond : env.path_info = p.login_form_url ∨
      optStrTruthy (p.get_logins env) = true)
    (hbytes : allBytes env.query_string) :
    ∃ env2, p.identify env = some env2 ∧
      env2.who_logins = some (p.get_logins_forced env) ∧
      qsHasKey env2.query_string p.login_counter_name = false := by
  unfold FriendlyFormPlugin.identify
  rw [if_neg hnl, if_pos hcond]
  by_cases hg : (parse_dict_querystring
      { env with who_logins := some (p.get_logins_forced env) }).any
      (fun kv => kv.1 = p.login_counter_name) = true
  · rw [if_pos hg]
    refine ⟨_, rfl, rfl, ?_⟩
    unfold qsHasKey
    have hqs : ∀ kv ∈ parse_dict_querystring
        { env with who_logins := some (p.get_logins_forced env) },
        allBytes kv.1 ∧ allBytes kv.2 :=
      parse_qsl_allBytes hbytes true
    have hdel : ∀ kv ∈ mdDel (parse_dict_querystring
        { env with who_logins := some (p.get_logins_forced env) })
        p.login_counter_name, allBytes kv.1 ∧ allBytes kv.2 := by
      intro kv hm
      exact hqs kv (List.mem_of_mem_filter hm)
    rw [parse_qsl_urlencodeMD _ hdel]
    rw [List.any_eq_false]
    intro kv hm
    have hne := List.of_mem_filter hm
    simpa using hne
  · rw [if_neg hg]
    refine ⟨_, rfl, rfl, ?_⟩
    unfold qsHasKey
    exact Bool.not_eq_true .. |>.mp hg

/-- Witness for the amended C5 on the login-form test environ. -/
theorem identify_login_form_parses_and_strips_witness :
    sampleLoginFormEnv.path_info ≠ samplePlugin.login_handler_path ∧
    (sampleLoginFormEnv.path_info = samplePlugin.login_form_url ∨
      optStrTruthy (samplePlugin.get_logins sampleLoginFormEnv) = true) ∧
    allBytes sampleLoginFormEnv.query_string ∧
    ∃ env2, samplePlugin.identify sampleLoginFormEnv = some env2 ∧
      env2.who_logins
        = some (samplePlugin.get_logins_forced sampleLoginFormEnv) ∧
      qsHasKey env2.query_string samplePlugin.login_counter_name = false :=
  ⟨by decide, by decide, by decide,
   identify_login_form_parses_and_strips samplePlugin sampleLoginFormEnv
     (by decide) (by decide) (by decide)⟩

/-! ## Lemmas: last-separator splitting -/

theorem dropWhile_head_eq {p : Char → Bool} {l : Str} {x : Char} {xs : Str}
    (h : l.dropWhile p = x :: xs) : p x = false := by
  have h2 := List.head?_dropWhile_not p l
  rw [h] at h2
  simpa using h2

theorem afterLast_spec {c : Char} {s : Str} (h : c ∈ s) :
    beforeLast c s ++ c :: afterLast c s = s ∧ c ∉ afterLast c s := by
  have hrev : c ∈ s.reverse := by simpa
  have hsplit : s.reverse.takeWhile (fun d => d ≠ c)
      ++ s.reverse.dropWhile (fun d => d ≠ c) = s.reverse :=
    List.takeWhile_append_dropWhile ..
  have hnotmem : c ∉ afterLast c s := by
    unfold afterLast
    intro hm
    rw [List.mem_reverse] at hm
    have := List.mem_takeWhile_imp hm
    simp at this
  cases hdw : s.reverse.dropWhile (fun d => d ≠ c) with
  | nil =>
    exfalso
    rw [List.dropWhile_eq_nil_iff] at hdw
    have := hdw c hrev
    simp at this
  | cons x xs =>
    have hx : x = c := by simpa using dropWhile_head_eq hdw
    rw [hx] at hdw
    refine ⟨?_, hnotmem⟩
    unfold beforeLast afterLast
    rw [hdw]
    conv_rhs => rw [← List.reverse_reverse s, ← hsplit, hdw]
    rw [List.reverse_append, List.reverse_cons]
    simp

theorem afterLast_append_cons {c : Char} {x y : Str} (hy : c ∉ y) :
    afterLast c (x ++ c :: y) = y ∧ beforeLast c (x ++ c :: y) = x := by
  unfold afterLast beforeLast
  rw [List.reverse_append, List.reverse_cons]
  have hpos : ∀ d ∈ y.reverse, (fun d => decide (d ≠ c)) d = true := by
    intro d hd
    rw [List.mem_reverse] at hd
    simp
    exact fun he => hy (he ▸ hd)
  rw [List.append_assoc, List.takeWhile_append_of_pos hpos,
    List.dropWhile_append_of_pos hpos]
  constructor
  · rw [List.singleton_append, List.takeWhile_cons_of_neg (by simp)]
    simp
  · rw [List.singleton_append, List.dropWhile_cons_of_neg (by simp)]
    simp

theorem slash_prefix {rest x t : Str} (h2 : rest.take 1 ≠ ['/'])
    (he : ('/' :: rest : Str) = x ++ t) (hx : x ≠ []) :
    ∃ x2, x = '/' :: x2 ∧ x2.take 1 ≠ ['/'] := by
  cases x with
  | nil => exact absurd rfl hx
  | cons a x2 =>
    rw [List.cons_append] at he
    have ha : '/' = a ∧ rest = x2 ++ t := by
      have := List.cons.injEq .. ▸ he
      exact ⟨this.1, this.2⟩
    refine ⟨x2, by rw [← ha.1], ?_⟩
    intro htk
    apply h2
    cases x2 with
    | nil => simp at htk
    | cons b x3 =>
      simp only [List.take_succ_cons, List.take_zero] at htk
      have hb : b = '/' := by simpa using htk
      rw [ha.2, List.cons_append]
      simp [hb]

theorem urlsplit_abs (rest : Str) (h2 : rest.take 1 ≠ ['/']) :
    ∃ p2, (urlsplit ('/' :: rest)).scheme = [] ∧
      (urlsplit ('/' :: rest)).netloc = [] ∧
      (urlsplit ('/' :: rest)).path = '/' :: p2 ∧
      p2.take 1 ≠ ['/'] ∧
      '#' ∉ (urlsplit ('/' :: rest)).path ∧
      '?' ∉ (urlsplit ('/' :: rest)).path ∧
      (∀ c ∈ (urlsplit ('/' :: rest)).path, c ∈ ('/' :: rest : Str)) ∧
      (∀ c ∈ (urlsplit ('/' :: rest)).query, c ∈ ('/' :: rest : Str)) := by
  have hscheme : (match split1 ':' ('/' :: rest : Str) with
      | some (pre, post) =>
        if pre ≠ [] ∧ pre.all (fun c => scheme_chars.contains c) then
          (lowerStr pre, post)
        else ([], ('/' :: rest : Str))
      | none => ([], ('/' :: rest : Str)))
      = (([] : Str), ('/' :: rest : Str)) := by
    cases hsp : split1 ':' ('/' :: rest : Str) with
    | none => rfl
    | some pp =>
      obtain ⟨pre, post⟩ := pp
      obtain ⟨hdec, _⟩ := split1_eq_some hsp
      cases pre with
      | nil => simp at hdec
      | cons q qs =>
        rw [List.cons_append] at hdec
        have hq : q = '/' := ((List.cons.injEq .. ▸ hdec).1).symm
        have hcond : ¬ ((q :: qs : Str) ≠ [] ∧
            (q :: qs : Str).all (fun c => scheme_chars.contains c)) := by
          rintro ⟨-, hall⟩
          rw [List.all_cons] at hall
          rw [hq] at hall
          simp [scheme_chars] at hall
        simp only [hcond, if_false]
  have hnet : ¬ (uses_netloc.contains ([] : Str)
      ∧ ('/' :: rest : Str).take 2 = ['/', '/']) := by
    rintro ⟨-, htk⟩
    rw [List.take_succ_cons] at htk
    have := (List.cons.injEq .. ▸ htk).2
    exact h2 this
  unfold urlsplit
  rw [hscheme]
  simp only [hnet, if_false]
  rw [if_pos (by decide : uses_fragment.contains ([] : Str) = true)]
  rw [if_pos (by decide : uses_query.contains ([] : Str) = true)]
  cases hf : split1 '#' ('/' :: rest : Str) with
  | none =>
    have hnf := split1_eq_none hf
    cases hq : split1 '?' ('/' :: rest : Str) with
    | none =>
      have hnq := split1_eq_none hq
      exact ⟨rest, trivial, trivial, rfl, h2, hnf, hnq,
        fun c hc => hc, fun c hc => by simp at hc⟩
    | some bq =>
      obtain ⟨b, q⟩ := bq
      obtain ⟨hdec, hnb⟩ := split1_eq_some hq
      have hbne : b ≠ [] := by
        intro hbn
        rw [hbn] at hdec
        simp at hdec
      obtain ⟨x2, hx2, hx2t⟩ := slash_prefix h2 hdec hbne
      refine ⟨x2, trivial, trivial, hx2, hx2t, ?_, hnb, ?_, ?_⟩
      · intro hm
        exact hnf (by rw [hdec]; simp [hm])
      · intro c hc
        rw [hdec]
        simp [hc]
      · intro c hc
        rw [hdec]
        simp [hc]
  | some af =>
    obtain ⟨a, f⟩ := af
    obtain ⟨hdec, hna⟩ := split1_eq_some hf
    cases hq : split1 '?' a with
    | none =>
      have hnq := split1_eq_none hq
      have hane : a ≠ [] := by
        intro han
        rw [han] at hdec
        simp at hdec
      obtain ⟨x2, hx2, hx2t⟩ := slash_prefix h2 hdec hane
      refine ⟨x2, trivial, trivial, hx2, hx2t, hna, hnq, ?_, ?_⟩
      · intro c hc
        rw [hdec]
        simp [hc]
      · intro c hc
        simp at hc
    | some bq =>
      obtain ⟨b, q⟩ := bq
      obtain ⟨hdec2, hnb⟩ := split1_eq_some hq
      have hbne : b ≠ [] := by
        intro hbn
        rw [hbn] at hdec2
        rw [hdec2] at hdec
        simp at hdec
      have hdec3 : ('/' :: rest : Str) = b ++ ('?' :: q ++ '#' :: f) := by
        rw [hdec, hdec2]
        simp
      obtain ⟨x2, hx2, hx2t⟩ := slash_prefix h2 hdec3 hbne
      refine ⟨x2, trivial, trivial, hx2, hx2t, ?_, hnb, ?_, ?_⟩
      · intro hm
        exact hna (by rw [hdec2]; simp [hm])
      · intro c hc
        rw [hdec3]
        simp [hc]
      · intro c hc
        rw [hdec3]
        simp [hc]

theorem mem_afterLast {c d : Char} {s : Str} (h : d ∈ afterLast c s) :
    d ∈ s := by
  unfold afterLast at h
  rw [List.mem_reverse] at h
  rw [← List.mem_reverse]
  exact (List.takeWhile_sublist _).mem h

theorem urlparse_abs (rest : Str) (h2 : rest.take 1 ≠ ['/']) :
    ∃ path params,
      urlparse ('/' :: rest) = ⟨[], [], path, params,
        (urlsplit ('/' :: rest)).query, (urlsplit ('/' :: rest)).fragment⟩ ∧
      (∃ p2, path = '/' :: p2 ∧ p2.take 1 ≠ ['/']) ∧
      '#' ∉ path ∧ '?' ∉ path ∧ ';' ∉ afterLast '/' path ∧
      '#' ∉ params ∧ '?' ∉ params ∧ '/' ∉ params ∧
      (∀ c ∈ (urlsplit ('/' :: rest)).query, c ∈ ('/' :: rest : Str)) := by
  obtain ⟨p20, hs, hn, hp, hpt, hnh, hnq, hmemP, hmemQ⟩ := urlsplit_abs rest h2
  have hslash : '/' ∈ (urlsplit ('/' :: rest)).path := by
    rw [hp]
    exact List.mem_cons_self ..
  unfold urlparse
  by_cases hsemi : ';' ∈ (urlsplit ('/' :: rest)).path
  · rw [if_pos ⟨by rw [hs]; decide, hsemi⟩]
    unfold splitparams
    rw [if_pos hslash]
    obtain ⟨hdecomp, hnoslash⟩ := afterLast_spec hslash
    cases hsp1 : split1 ';' (afterLast '/' ((urlsplit ('/' :: rest)).path)) with
    | none =>
      have hnsemi := split1_eq_none hsp1
      refine ⟨(urlsplit ('/' :: rest)).path, [], ?_, ⟨p20, hp, hpt⟩,
        hnh, hnq, hnsemi, by simp, by simp, by simp, hmemQ⟩
      rw [hs, hn]
    | some ab =>
      obtain ⟨a, b⟩ := ab
      obtain ⟨hal, hnsa⟩ := split1_eq_some hsp1
      have hpath_eq : (urlsplit ('/' :: rest)).path
          = (beforeLast '/' ((urlsplit ('/' :: rest)).path) ++ '/' :: a)
            ++ ';' :: b := by
        conv_lhs => rw [← hdecomp, hal]
        simp
      have hmem_after : ∀ c ∈ a ++ ';' :: b,
          c ∈ (urlsplit ('/' :: rest)).path := by
        intro c hc
        rw [← hal] at hc
        exact mem_afterLast hc
      have hnsA : '/' ∉ a := by
        intro hm
        exact hnoslash (by rw [hal]; simp [hm])
      have hpne : (beforeLast '/' ((urlsplit ('/' :: rest)).path)
          ++ '/' :: a : Str) ≠ [] := by simp
      have hdec2 : ('/' :: p20 : Str)
          = (beforeLast '/' ((urlsplit ('/' :: rest)).path) ++ '/' :: a)
            ++ ';' :: b := by
        rw [← hp]
        exact hpath_eq
      obtain ⟨p2, hp2, hp2t⟩ := slash_prefix hpt hdec2 hpne
      refine ⟨beforeLast '/' ((urlsplit ('/' :: rest)).path) ++ '/' :: a, b,
        ?_, ⟨p2, hp2, hp2t⟩, ?_, ?_, ?_, ?_, ?_, ?_, hmemQ⟩
      · rw [hs, hn]
      · intro hm
        exact hnh (by rw [hpath_eq]; exact List.mem_append.mpr (Or.inl hm))
      · intro hm
        exact hnq (by rw [hpath_eq]; exact List.mem_append.mpr (Or.inl hm))
      · rw [(afterLast_append_cons hnsA).1]
        exact hnsa
      · intro hm
        exact hnh (hmem_after _ (by simp [hm]))
      · intro hm
        exact hnq (hmem_after _ (by simp [hm]))
      · intro hm
        exact hnoslash (by rw [hal]; simp [hm])
  · rw [if_neg (fun hand => hsemi hand.2)]
    refine ⟨(urlsplit ('/' :: rest)).path, [], ?_, ⟨p20, hp, hpt⟩,
      hnh, hnq, ?_, by simp, by simp, by simp, hmemQ⟩
    · rw [hs, hn]
    · intro hm
      exact hsemi (mem_afterLast hm)

theorem scheme_step_slash (rest : Str) :
    (match split1 ':' ('/' :: rest : Str) with
      | some (pre, post) =>
        if pre ≠ [] ∧ pre.all (fun c => scheme_chars.contains c) then
          (lowerStr pre, post)
        else ([], ('/' :: rest : Str))
      | none => ([], ('/' :: rest : Str)))
      = (([] : Str), ('/' :: rest : Str)) := by
  cases hsp : split1 ':' ('/' :: rest : Str) with
  | none => rfl
  | some pp =>
    obtain ⟨pre, post⟩ := pp
    obtain ⟨hdec, _⟩ := split1_eq_some hsp
    cases pre with
    | nil => simp at hdec
    | cons q qs =>
      rw [List.cons_append] at hdec
      have hq : q = '/' := ((List.cons.injEq .. ▸ hdec).1).symm
      have hcond : ¬ ((q :: qs : Str) ≠ [] ∧
          (q :: qs : Str).all (fun c => scheme_chars.contains c)) := by
        rintro ⟨-, hall⟩
        rw [List.all_cons] at hall
        rw [hq] at hall
        simp [scheme_chars] at hall
      simp only [hcond, if_false]

/-- `urlsplit` recovers the pieces of a reassembled absolute-path URL. -/
theorem urlsplit_recover (PP query frag : Str)
    (hPP : ∃ p2, PP = '/' :: p2 ∧ p2.take 1 ≠ ['/'])
    (hh : '#' ∉ PP) (hq : '?' ∉ PP) (hqh : '#' ∉ query) :
    urlsplit (PP ++ '?' :: query ++ (if frag ≠ [] then '#' :: frag else []))
      = ⟨[], [], PP, query, frag⟩ := by
  obtain ⟨p2, hp2, hp2t⟩ := hPP
  have hshape : ∃ r2, (PP ++ '?' :: query
      ++ (if frag ≠ [] then '#' :: frag else []) : Str) = '/' :: r2 ∧
      r2.take 1 ≠ ['/'] := by
    refine ⟨p2 ++ '?' :: query ++ (if frag ≠ [] then '#' :: frag else []),
      by rw [hp2]; simp, ?_⟩
    cases p2 with
    | nil => simp
    | cons x xs =>
      intro htk
      apply hp2t
      simp only [List.cons_append, List.take_succ_cons, List.take_zero] at htk ⊢
      exact htk
  obtain ⟨r2, hr2, hr2t⟩ := hshape
  have hnet : ¬ (uses_netloc.contains ([] : Str)
      ∧ ('/' :: r2 : Str).take 2 = ['/', '/']) := by
    rintro ⟨-, htk⟩
    rw [List.take_succ_cons] at htk
    exact hr2t (List.cons.injEq .. ▸ htk).2
  unfold urlsplit
  rw [hr2, scheme_step_slash]
  simp only [hnet, if_false]
  rw [if_pos (by decide : uses_fragment.contains ([] : Str) = true)]
  rw [if_pos (by decide : uses_query.contains ([] : Str) = true)]
  rw [← hr2]
  have hnf : '#' ∉ (PP ++ '?' :: query : Str) := by
    intro hm
    rcases List.mem_append.mp hm with h1 | h1
    · exact hh h1
    · rcases List.mem_cons.mp h1 with h1 | h1
      · simp at h1
      · exact hqh h1
  by_cases hfr : frag ≠ []
  · rw [if_pos hfr]
    have hfs := @split1_append '#' (PP ++ '?' :: query) frag hnf
    have hqs := @split1_append '?' PP query hq
    simp only [List.append_assoc, List.cons_append] at hfs ⊢
    simp only [hfs, hqs]
  · rw [if_neg hfr]
    have hfe : frag = [] := by
      by_contra hc
      exact hfr hc
    subst hfe
    have hfs := split1_of_not_mem hnf
    have hqs := @split1_append '?' PP query hq
    simp only [List.append_nil]
    simp only [hfs, hqs]

/-- `urlparse` recovers the components of an `urlunparse`d absolute-path
URL whose query is non-empty. -/
theorem urlparse_urlunparse_abs (path params query frag : Str)
    (hpath : ∃ p2, path = '/' :: p2 ∧ p2.take 1 ≠ ['/'])
    (hh : '#' ∉ path) (hqp : '?' ∉ path) (hsemi : ';' ∉ afterLast '/' path)
    (hph : '#' ∉ params) (hpq : '?' ∉ params) (hps : '/' ∉ params)
    (hqh : '#' ∉ query) (hqne : query ≠ []) :
    urlparse (urlunparse ⟨[], [], path, params, query, frag⟩)
      = ⟨[], [], path, params, query, frag⟩ := by
  obtain ⟨p2, hp2, hp2t⟩ := hpath
  have hPP : ∃ q2, (if params ≠ [] then path ++ ';' :: params else path)
      = '/' :: q2 ∧ q2.take 1 ≠ ['/'] := by
    by_cases hpar : params ≠ []
    · rw [if_pos hpar, hp2, List.cons_append]
      refine ⟨p2 ++ ';' :: params, rfl, ?_⟩
      cases p2 with
      | nil => simp
      | cons x xs =>
        intro htk
        apply hp2t
        simp only [List.cons_append, List.take_succ_cons, List.take_zero]
          at htk ⊢
        exact htk
    · rw [if_neg hpar]
      exact ⟨p2, hp2, hp2t⟩
  have hhPP : '#' ∉ (if params ≠ [] then path ++ ';' :: params else path) := by
    by_cases hpar : params ≠ []
    · rw [if_pos hpar]
      intro hm
      rcases List.mem_append.mp hm with h1 | h1
      · exact hh h1
      · rcases List.mem_cons.mp h1 with h1 | h1
        · simp at h1
        · exact hph h1
    · rw [if_neg hpar]
      exact hh
  have hqPP : '?' ∉ (if params ≠ [] then path ++ ';' :: params else path) := by
    by_cases hpar : params ≠ []
    · rw [if_pos hpar]
      intro hm
      rcases List.mem_append.mp hm with h1 | h1
      · exact hqp h1
      · rcases List.mem_cons.mp h1 with h1 | h1
        · simp at h1
        · exact hpq h1
    · rw [if_neg hpar]
      exact hqp
  have hun : urlunparse ⟨[], [], path, params, query, frag⟩
      = (if params ≠ [] then path ++ ';' :: params else path)
        ++ '?' :: query ++ (if frag ≠ [] then '#' :: frag else []) := by
    unfold urlunparse urlunsplit
    obtain ⟨q2, hq2, hq2t⟩ := hPP
    have hcond : ¬ (([] : Str) ≠ [] ∨
        (if params ≠ [] then path ++ ';' :: params else path).take 2
          = ['/', '/']) := by
      rintro (h1 | h1)
      · exact h1 rfl
      · rw [hq2, List.take_succ_cons] at h1
        exact hq2t (List.cons.injEq .. ▸ h1).2
    simp only [hcond, if_false]
    rw [if_neg (by simp : ¬ (([] : Str) ≠ []))]
    rw [if_pos hqne]
    by_cases hfr : frag ≠ []
    · simp [hfr]
    · simp [hfr]
  rw [hun]
  unfold urlparse
  rw [urlsplit_recover _ query frag hPP hhPP hqPP hqh]
  by_cases hpar : params ≠ []
  · simp only [if_pos hpar]
    have hsl : '/' ∈ (path ++ ';' :: params : Str) := by
      rw [hp2]
      simp
    have hsemi2 : (';' : Char) ∈ (path ++ ';' :: params : Str) := by simp
    rw [if_pos ⟨by decide, hsemi2⟩]
    unfold splitparams
    rw [if_pos hsl]
    have hslp : '/' ∈ path := by
      rw [hp2]
      exact List.mem_cons_self ..
    obtain ⟨hdecomp, hnoslash⟩ := afterLast_spec hslp
    have hAfterPath : afterLast '/' path = afterLast '/' path := rfl
    have hnos2 : '/' ∉ (afterLast '/' path ++ ';' :: params : Str) := by
      intro hm
      rcases List.mem_append.mp hm with h1 | h1
      · exact hnoslash h1
      · rcases List.mem_cons.mp h1 with h1 | h1
        · simp at h1
        · exact hps h1
    have hPPdec : (path ++ ';' :: params : Str)
        = beforeLast '/' path ++ '/' ::
          (afterLast '/' path ++ ';' :: params) := by
      conv_lhs => rw [← hdecomp]
      simp
    have hals := @afterLast_append_cons '/' (beforeLast '/' path)
      (afterLast '/' path ++ ';' :: params) hnos2
    have hafter : afterLast '/' (path ++ ';' :: params)
        = afterLast '/' path ++ ';' :: params := by
      rw [hPPdec]
      exact hals.1
    have hbefore : beforeLast '/' (path ++ ';' :: params)
        = beforeLast '/' path := by
      rw [hPPdec]
      exact hals.2
    rw [hafter, hbefore]
    simp only [split1_append hsemi]
    rw [hdecomp]
  · simp only [if_neg hpar]
    have hpare : params = [] := by
      by_contra hc
      exact hpar hc
    subst hpare
    by_cases hsp : (';' : Char) ∈ path
    · rw [if_pos ⟨by decide, hsp⟩]
      unfold splitparams
      have hslp : '/' ∈ path := by
        rw [hp2]
        exact List.mem_cons_self ..
      rw [if_pos hslp]
      rw [split1_of_not_mem hsemi]
    · rw [if_neg (fun hand => hsp hand.2)]

/-! ## Lemmas: query dictionary stability -/

theorem insert_qs_eq (u k : Str) (w : PyVal)
    (s n pa pr q f : Str) (hup : urlparse u = ⟨s, n, pa, pr, q, f⟩) :
    insert_qs_variable u k w
      = urlunparse ⟨s, n, pa, pr,
          urlencode_doseq (dictSet (parse_qs q) k w), f⟩ := by
  unfold insert_qs_variable
  rw [hup]

/-! ## Lemmas: more list splitting facts for the general URL round trip -/

theorem split1_skip {c : Char} {l1 : Str} (h : c ∉ l1) (l2 : Str) :
    split1 c (l1 ++ l2)
      = (split1 c l2).map (fun p => (l1 ++ p.1, p.2)) := by
  induction l1 with
  | nil =>
    cases hs : split1 c l2 with
    | none => simp [hs]
    | some p => simp [hs]
  | cons x xs ih =>
    simp only [List.mem_cons, not_or] at h
    rw [List.cons_append, split1, if_neg (Ne.symm h.1), ih h.2]
    cases split1 c l2 with
    | none => rfl
    | some p => rfl

theorem colon_not_mem_scheme {s : Str}
    (h : s.all (fun c => scheme_chars.contains c) = true) : ':' ∉ s := by
  rw [List.all_eq_true] at h
  intro hm
  exact absurd (h ':' hm) (by decide)

